import Mathlib

/-!
Shallow embedding of `epan/export_object.c` (Wireshark export-object registry
and filename sanitizer).  C strings are modelled as `List Char` (NUL-free byte
strings); glib's `gsize` is modelled as a 64-bit unsigned quantity, so the
subtractions the C code performs on `gsize` values are modelled modulo `2^64`.
-/

namespace ExportObject

/-- Number of values of the C type `gsize` (64-bit unsigned). -/
def USIZE : Nat := 2 ^ 64

/-- C unsigned subtraction on `gsize`: `a - b` computed modulo `2^64`. -/
def gsizeSub (a b : Nat) : Nat := (a % USIZE + (USIZE - b % USIZE)) % USIZE

/-- Model of glib `g_string_truncate(s, n)`: keeps the first `MIN(n, s->len)`
bytes (glib literally sets `string->len = MIN (len, string->len)`). -/
def g_string_truncate (s : List Char) (n : Nat) : List Char :=
  s.take (min n s.length)

/-- Model of `strrchr(s, ch)`: the suffix of `s` beginning at the LAST
occurrence of `ch`, or `none` when `ch` does not occur. -/
def strrchr_suffix (ch : Char) : List Char → Option (List Char)
  | [] => none
  | c :: rest =>
    match strrchr_suffix ch rest with
    | some s => some s
    | none => if c = ch then some (c :: rest) else none

/-- The reject set of `eo_massage_str`: the bytes of `"<>:\"/\\|?*"` together
with the control bytes `0x01`–`0x1f`. -/
def isReject (c : Char) : Bool :=
  ("<>:\"/\\|?*".toList).contains c || (1 ≤ c.toNat && c.toNat ≤ 31)

/-- Lowercase hexadecimal digit, as produced by C `printf "%x"`. -/
def hexDigitLower (n : Nat) : Char :=
  if n < 10 then Char.ofNat (48 + n) else Char.ofNat (87 + n)

/-- The three-byte escape `%xx` emitted by `g_string_append_printf(out_str,
"%%%02x", *tmp_ptr)` for a rejected byte (all rejected bytes are `< 0x80`,
so the two lowercase hex digits are exactly `value / 16` and `value % 16`). -/
def pctEscape (c : Char) : List Char :=
  ['%', hexDigitLower (c.toNat / 16), hexDigitLower (c.toNat % 16)]

/-- The character-filtering loop of `eo_massage_str`: the `strpbrk` loop
copies every run of safe bytes verbatim and replaces each rejected byte by
its `%xx` escape, i.e. byte by byte: a safe byte is copied, a rejected byte
becomes `pctEscape`. -/
def eo_massage_filter : List Char → List Char
  | [] => []
  | c :: rest =>
    if isReject c then pctEscape c ++ eo_massage_filter rest
    else c :: eo_massage_filter rest

/-- Steps 1–2 of `eo_massage_str`: character filtering followed by the
`out_str->len > maxlen` truncation block (extension retained when the
filtered name contains a `.`; the `maxlen - ext_str->len` subtraction is
`gsize` arithmetic). -/
def eo_massage_bound (in_str : List Char) (maxlen : Nat) : List Char :=
  if (eo_massage_filter in_str).length > maxlen then
    match strrchr_suffix '.' (eo_massage_filter in_str) with
    | some ext_str =>
      g_string_truncate (eo_massage_filter in_str)
        (gsizeSub maxlen ext_str.length) ++ ext_str
    | none => g_string_truncate (eo_massage_filter in_str) maxlen
  else eo_massage_filter in_str

/-- The disambiguation suffix `"(N)"` built by `eo_rename` via
`g_string_new("(")` followed by `g_string_append_printf(gstr_tmp, "%d)",
dupn)`. -/
def eo_dup_suffix (dupn : Int) : List Char :=
  '(' :: ((toString dupn).toList ++ [')'])

/-- Model of the static helper `eo_rename(gstr, dupn)`.  `maxfilelen` stands
for the constant `EXPORT_OBJECT_MAXFILELEN`, whose definition lives in a
header outside this excerpt; it is kept as an explicit parameter.  Both
`EXPORT_OBJECT_MAXFILELEN - (strlen(gstr_tmp->str) + ext_str->len)`
subtractions are `gsize` arithmetic. -/
def eo_rename (maxfilelen : Nat) (gstr : List Char) (dupn : Int) : List Char :=
  match strrchr_suffix '.' gstr with
  | some ext_str =>
    (if (g_string_truncate gstr (gstr.length - ext_str.length)).length ≥
        gsizeSub maxfilelen ((eo_dup_suffix dupn).length + ext_str.length) then
      g_string_truncate (g_string_truncate gstr (gstr.length - ext_str.length))
        (gsizeSub maxfilelen ((eo_dup_suffix dupn).length + ext_str.length))
    else g_string_truncate gstr (gstr.length - ext_str.length))
      ++ eo_dup_suffix dupn ++ ext_str
  | none =>
    (if gstr.length ≥ gsizeSub maxfilelen (eo_dup_suffix dupn).length then
      g_string_truncate gstr (gsizeSub maxfilelen (eo_dup_suffix dupn).length)
    else gstr) ++ eo_dup_suffix dupn

/-- Model of `eo_massage_str(in_str, maxlen, dupn)`: filter, truncate to
`maxlen`, then call `eo_rename` when `dupn != 0`. -/
def eo_massage_str (maxfilelen : Nat) (in_str : List Char) (maxlen : Nat)
    (dupn : Int) : List Char :=
  if dupn ≠ 0 then eo_rename maxfilelen (eo_massage_bound in_str maxlen) dupn
  else eo_massage_bound in_str maxlen

/-- Model of `eo_ct2ext`: returns its argument unchanged (the mapping is a
stub; a NULL pointer argument is `none`). -/
def eo_ct2ext (content_type : Option (List Char)) : Option (List Char) :=
  content_type

/-! Registry: `struct register_eo`, sorted insertion, lookup, iteration.
Callback pointers are modelled as opaque identifiers: `Nat` for the stored
(non-NULL) `tap_packet_cb`, `Option Nat` for the nullable reset callback.
The collaborator `proto_get_protocol_filter_name` is a parameter
`pf : Int → List Char`, and `register_tap` a parameter `rt : List Char → Int`. -/

/-- Model of `struct register_eo`. -/
structure register_eo where
  proto_id : Int
  tap_listen_str : List Char
  eo_func : Nat
  reset_cb : Option Nat
deriving DecidableEq, Repr

/-- Model of glib `g_ascii_tolower`: maps `A`–`Z` to lowercase, every other
byte unchanged. -/
def g_ascii_tolower (c : Char) : Char :=
  if 65 ≤ c.toNat ∧ c.toNat ≤ 90 then Char.ofNat (c.toNat + 32) else c

/-- Model of glib `g_ascii_strcasecmp`: walks both strings while bytes remain
on both sides, returning the difference of the first pair of bytes that
differ after `g_ascii_tolower`; when one string is exhausted the RAW byte
values (0 for the exhausted side) are compared. -/
def g_ascii_strcasecmp : List Char → List Char → Int
  | [], [] => 0
  | [], c :: _ => -(c.toNat : Int)
  | c :: _, [] => (c.toNat : Int)
  | c1 :: r1, c2 :: r2 =>
    if (g_ascii_tolower c1).toNat ≠ (g_ascii_tolower c2).toNat then
      ((g_ascii_tolower c1).toNat : Int) - ((g_ascii_tolower c2).toNat : Int)
    else g_ascii_strcasecmp r1 r2

/-- Model of the comparator `insert_sorted_by_table_name`: case-insensitive
comparison of the two protocols' filter names. -/
def insert_sorted_by_table_name (pf : Int → List Char) (a b : register_eo) : Int :=
  g_ascii_strcasecmp (pf a.proto_id) (pf b.proto_id)

/-- Model of glib `g_slist_insert_sorted`: the new element is inserted before
the first element `y` with `cmp x y ≤ 0`, after all elements with
`cmp x y > 0` (appended at the end when every comparison is positive). -/
def g_slist_insert_sorted (cmp : α → α → Int) (l : List α) (x : α) : List α :=
  match l with
  | [] => [x]
  | y :: ys =>
    if cmp x y > 0 then y :: g_slist_insert_sorted cmp ys x
    else x :: y :: ys

/-- Model of `register_export_object`.  A NULL `export_packet_func` (here
`none`) hits `DISSECTOR_ASSERT`, modelled as the fatal result `none`;
otherwise the record is built with `tap_listen_str = "<filter-name>_eo"`,
inserted in sorted order, and the `register_tap` token for that name is
returned together with the new registry. -/
def register_export_object (pf : Int → List Char) (rt : List Char → Int)
    (st : List register_eo) (proto_id : Int)
    (export_packet_func : Option Nat) (reset_cb : Option Nat) :
    Option (List register_eo × Int) :=
  match export_packet_func with
  | none => none
  | some f =>
    let table : register_eo :=
      ⟨proto_id, pf proto_id ++ "_eo".toList, f, reset_cb⟩
    some (g_slist_insert_sorted (insert_sorted_by_table_name pf) st table,
          rt table.tap_listen_str)

/-- Model of `get_eo_proto_id`: `-1` on a NULL handle, else the stored id. -/
def get_eo_proto_id : Option register_eo → Int
  | none => -1
  | some eo => eo.proto_id

/-- Model of `get_eo_tap_listener_name`. -/
def get_eo_tap_listener_name (eo : register_eo) : List Char :=
  eo.tap_listen_str

/-- Model of `get_eo_packet_func`. -/
def get_eo_packet_func (eo : register_eo) : Nat :=
  eo.eo_func

/-- Model of `get_eo_reset_func`. -/
def get_eo_reset_func (eo : register_eo) : Option Nat :=
  eo.reset_cb

/-- Model of `get_eo_by_name`: linear scan in list order, returning the first
entry whose protocol's filter name `strcmp`-equals `name`, else NULL. -/
def get_eo_by_name (pf : Int → List Char) (st : List register_eo)
    (name : List Char) : Option register_eo :=
  match st with
  | [] => none
  | eo :: rest =>
    if name = pf eo.proto_id then some eo else get_eo_by_name pf rest name

/-- Model of glib `g_slist_foreach(l, f, u)`: the list of results of calling
`f` once per element, in list order, with `u` passed unchanged to each call
(the call trace of the visitor). -/
def g_slist_foreach (l : List α) (f : α → β → γ) (u : β) : List γ :=
  match l with
  | [] => []
  | x :: xs => f x u :: g_slist_foreach xs f u

/-- Model of `eo_iterate_tables`: `g_slist_foreach` over the registry. -/
def eo_iterate_tables (st : List register_eo) (f : register_eo → β → γ)
    (u : β) : List γ :=
  g_slist_foreach st f u

/-- One `register_export_object` call with a non-NULL packet callback,
viewed as a transition on the registry state (`op` = protocol id, packet
callback id, reset callback). -/
def registerStep (pf : Int → List Char) (rt : List Char → Int)
    (st : List register_eo) (op : Int × Nat × Option Nat) :
    List register_eo :=
  match register_export_object pf rt st op.1 (some op.2.1) op.2.2 with
  | some (st', _) => st'
  | none => st

/-- State reached from the empty initial registry (`registered_eo_tables =
NULL`) by a finite sequence of `register_export_object` calls, each with a
non-NULL packet callback. -/
def registerAll (pf : Int → List Char) (rt : List Char → Int)
    (ops : List (Int × Nat × Option Nat)) : List register_eo :=
  ops.foldl (registerStep pf rt) []

/-- The registry sort invariant: adjacent entries are in ascending order of
`g_ascii_strcasecmp` on their protocols' filter names. -/
def RegistrySorted (pf : Int → List Char) (st : List register_eo) : Prop :=
  List.Chain' (fun a b => insert_sorted_by_table_name pf a b ≤ 0) st

/-- Concrete protocol-filter-name environment used in concrete instances:
protocol `0` is named `http`, every other id is named `smb`. -/
def pfW : Int → List Char :=
  fun i => if i = 0 then "http".toList else "smb".toList

/-- Concrete registry holding registrations for the two protocols of `pfW`,
in sorted order. -/
def stW : List register_eo :=
  [⟨0, "http_eo".toList, 1, none⟩, ⟨1, "smb_eo".toList, 2, none⟩]

/-! Helper lemmas. -/

theorem gsizeSub_of_le {a b : Nat} (hb : b ≤ a) (ha : a < USIZE) :
    gsizeSub a b = a - b := by
  have hbU : b < USIZE := lt_of_le_of_lt hb ha
  unfold gsizeSub
  rw [Nat.mod_eq_of_lt ha, Nat.mod_eq_of_lt hbU]
  have h : a + (USIZE - b) = (a - b) + USIZE := by omega
  rw [h, Nat.add_mod_right, Nat.mod_eq_of_lt (by omega)]

theorem g_string_truncate_eq_take (s : List Char) (n : Nat) :
    g_string_truncate s n = s.take n := by
  unfold g_string_truncate
  rcases le_total n s.length with h | h
  · rw [min_eq_left h]
  · rw [min_eq_right h, List.take_length, List.take_of_length_le h]

theorem g_string_truncate_length (s : List Char) (n : Nat) :
    (g_string_truncate s n).length = min n s.length := by
  rw [g_string_truncate_eq_take, List.length_take]

theorem eo_massage_filter_of_safe :
    ∀ {s : List Char}, (∀ c ∈ s, isReject c = false) → eo_massage_filter s = s
  | [], _ => rfl
  | c :: rest, h => by
    have hc : isReject c = false := h c (by simp)
    rw [eo_massage_filter, hc]
    simp only [Bool.false_eq_true, if_false, List.cons.injEq, true_and]
    exact eo_massage_filter_of_safe (fun d hd => h d (by simp [hd]))

theorem g_ascii_strcasecmp_antisymm :
    ∀ a b, g_ascii_strcasecmp a b = - g_ascii_strcasecmp b a
  | [], [] => by simp [g_ascii_strcasecmp]
  | [], _ :: _ => by simp [g_ascii_strcasecmp]
  | _ :: _, [] => by simp [g_ascii_strcasecmp]
  | c1 :: r1, c2 :: r2 => by
    rw [g_ascii_strcasecmp, g_ascii_strcasecmp]
    by_cases h : (g_ascii_tolower c1).toNat = (g_ascii_tolower c2).toNat
    · simp [h, g_ascii_strcasecmp_antisymm r1 r2]
    · have h2 : (g_ascii_tolower c2).toNat ≠ (g_ascii_tolower c1).toNat := Ne.symm h
      rw [if_pos h, if_pos h2]
      omega

theorem chain'_insert_sorted {α : Type _} (cmp : α → α → Int)
    (hanti : ∀ a b, 0 < cmp a b → cmp b a ≤ 0) :
    ∀ (l : List α), List.Chain' (fun a b => cmp a b ≤ 0) l →
      ∀ x, List.Chain' (fun a b => cmp a b ≤ 0) (g_slist_insert_sorted cmp l x)
  | [], _, x => by simp [g_slist_insert_sorted]
  | y :: ys, h, x => by
    rw [g_slist_insert_sorted]
    by_cases hc : cmp x y > 0
    · rw [if_pos hc]
      obtain ⟨hhead, htail⟩ := List.chain'_cons'.mp h
      refine List.chain'_cons'.mpr ⟨?_, chain'_insert_sorted cmp hanti ys htail x⟩
      intro z hz
      cases ys with
      | nil =>
        simp only [g_slist_insert_sorted, List.head?_cons, Option.mem_def,
          Option.some.injEq] at hz
        subst hz
        exact hanti _ _ hc
      | cons w ws =>
        rw [g_slist_insert_sorted] at hz
        by_cases hcw : cmp x w > 0
        · rw [if_pos hcw] at hz
          simp only [List.head?_cons, Option.mem_def, Option.some.injEq] at hz
          subst hz
          exact hhead w (by simp)
        · rw [if_neg hcw] at hz
          simp only [List.head?_cons, Option.mem_def, Option.some.injEq] at hz
          subst hz
          exact hanti _ _ hc
    · rw [if_neg hc]
      refine List.chain'_cons'.mpr ⟨?_, h⟩
      intro z hz
      simp only [List.head?_cons, Option.mem_def, Option.some.injEq] at hz
      subst hz
      omega

theorem g_slist_insert_sorted_decomp {α : Type _} (cmp : α → α → Int) (x : α) :
    ∀ l : List α, ∃ l1 l2, l = l1 ++ l2 ∧
      g_slist_insert_sorted cmp l x = l1 ++ x :: l2
  | [] => ⟨[], [], rfl, rfl⟩
  | y :: ys => by
    by_cases hc : cmp x y > 0
    · obtain ⟨l1, l2, he, hi⟩ := g_slist_insert_sorted_decomp cmp x ys
      exact ⟨y :: l1, l2, by rw [List.cons_append, ← he],
        by rw [g_slist_insert_sorted, if_pos hc, hi, List.cons_append]⟩
    · exact ⟨[], y :: ys, rfl, by rw [g_slist_insert_sorted, if_neg hc]; rfl⟩

theorem insert_sorted_by_table_name_antisymm (pf : Int → List Char) :
    ∀ a b : register_eo, 0 < insert_sorted_by_table_name pf a b →
      insert_sorted_by_table_name pf b a ≤ 0 := by
  intro a b h
  unfold insert_sorted_by_table_name at *
  rw [g_ascii_strcasecmp_antisymm]
  omega

theorem registerAll_sorted_from (pf : Int → List Char) (rt : List Char → Int) :
    ∀ (ops : List (Int × Nat × Option Nat)) (st : List register_eo),
      RegistrySorted pf st →
      RegistrySorted pf (List.foldl (registerStep pf rt) st ops)
  | [], _, h => h
  | op :: ops, st, h => by
    rw [List.foldl_cons]
    apply registerAll_sorted_from pf rt ops
    show RegistrySorted pf
      (g_slist_insert_sorted (insert_sorted_by_table_name pf) st _)
    exact chain'_insert_sorted (insert_sorted_by_table_name pf)
      (insert_sorted_by_table_name_antisymm pf) st h _

theorem g_slist_foreach_eq_map {α β γ : Type _} (f : α → β → γ) (u : β) :
    ∀ l : List α, g_slist_foreach l f u = l.map (fun x => f x u)
  | [] => rfl
  | x :: xs => by
    rw [g_slist_foreach, List.map_cons, g_slist_foreach_eq_map f u xs]

theorem get_eo_by_name_of_mem (pf : Int → List Char) :
    ∀ (st : List register_eo),
      st.Pairwise (fun a b => pf a.proto_id ≠ pf b.proto_id) →
      ∀ e ∈ st, get_eo_by_name pf st (pf e.proto_id) = some e
  | [], _, e, he => absurd he (List.not_mem_nil e)
  | a :: rest, hp, e, he => by
    rw [get_eo_by_name]
    rcases List.mem_cons.mp he with rfl | hrest
    · rw [if_pos rfl]
    · have h1 := (List.pairwise_cons.mp hp).1 e hrest
      rw [if_neg (Ne.symm h1)]
      exact get_eo_by_name_of_mem pf rest (List.pairwise_cons.mp hp).2 e hrest

theorem get_eo_by_name_of_absent (pf : Int → List Char) :
    ∀ (st : List register_eo) (name : List Char),
      (∀ e ∈ st, pf e.proto_id ≠ name) → get_eo_by_name pf st name = none
  | [], _, _ => rfl
  | a :: rest, name, h => by
    rw [get_eo_by_name,
      if_neg (fun hc => (h a (List.mem_cons_self a rest)) hc.symm)]
    exact get_eo_by_name_of_absent pf rest name
      (fun e he => h e (List.mem_cons_of_mem a he))

/-! Claim theorems. -/

/-- Claim C1, counterexample: for `candidateName = "a.bcdef"`, `maxLength = 3`
and `duplicateIndex = 0` the portion after the last `.` of the escaped name
(`.bcdef`, 6 bytes) is longer than `maxLength`, the `gsize` subtraction
`maxlen - ext_str->len` wraps around, `g_string_truncate` becomes a no-op,
and the extension is appended on top: the result has length 13 > 3, so the
output length does NOT always stay within `maxLength`. -/
theorem spec_c1_counterexample :
    (eo_massage_str 255 ("a.bcdef".toList) 3 0).length = 13 ∧
    ¬ ((eo_massage_str 255 ("a.bcdef".toList) 3 0).length ≤ 3) :=
  ⟨by decide, by decide⟩

/-- Claim C1 (amended): the string returned by `eo_massage_str` has length at
most `maxLength` provided `duplicateIndex = 0` and the portion after the
last `.` of the escaped name (when a `.` is present) is itself at most
`maxLength` long; the two edge cases the original claim singled out are
exactly the ones where the bound fails. -/
theorem spec_c1_amended (maxfilelen : Nat) (in_str : List Char) (maxlen : Nat)
    (hml : maxlen < USIZE)
    (hext : ((strrchr_suffix '.' (eo_massage_filter in_str)).getD []).length
      ≤ maxlen) :
    (eo_massage_str maxfilelen in_str maxlen 0).length ≤ maxlen := by
  rw [eo_massage_str, if_neg (by simp), eo_massage_bound]
  by_cases hlen : (eo_massage_filter in_str).length > maxlen
  · rw [if_pos hlen]
    cases hdot : strrchr_suffix '.' (eo_massage_filter in_str) with
    | none =>
      rw [g_string_truncate_length]
      omega
    | some ext =>
      rw [hdot] at hext
      simp only [Option.getD_some] at hext
      rw [List.length_append, g_string_truncate_length,
        gsizeSub_of_le hext hml]
      omega
  · rw [if_neg hlen]
    omega

/-- Claim C1 witness: instantiated at `"abcdefghij.txt"`, `maxLength = 10`,
`duplicateIndex = 0`. -/
theorem spec_c1_witness :
    (10 < USIZE ∧
      ((strrchr_suffix '.'
        (eo_massage_filter ("abcdefghij.txt".toList))).getD []).length ≤ 10) ∧
    (eo_massage_str 255 ("abcdefghij.txt".toList) 10 0).length ≤ 10 :=
  ⟨⟨by decide, by decide⟩,
    spec_c1_amended 255 ("abcdefghij.txt".toList) 10 (by decide) (by decide)⟩

/-- Claim C2, counterexample: `eo_massage_str("name.txt", 10, 2)` yields
`"name(2).txt"`, whose length is 11: `eo_rename` bounds the suffixed name
against `EXPORT_OBJECT_MAXFILELEN` (255), not against `maxLength`, so the
total length does NOT respect `maxLength = 10`. -/
theorem spec_c2_counterexample :
    (eo_massage_str 255 ("name.txt".toList) 10 2).length = 11 ∧
    ¬ ((eo_massage_str 255 ("name.txt".toList) 10 2).length ≤ 10) :=
  ⟨by decide, by decide⟩

/-- Claim C2 (amended): for every nonzero `duplicateIndex`, the result is
`stem ++ "(N)" ++ ext`, where `ext` is the suffix from the last `.` of the
length-bounded name when one exists and is empty otherwise — i.e. `"(N)"`
is inserted immediately before the extension, else appended at the end.
The total length respects the `EXPORT_OBJECT_MAXFILELEN`-based bound of
`eo_rename`, not `maxLength`: `eo_massage_str("name.txt", 10, 2)` is
exactly `"name(2).txt"` (length 11 > 10), with `"(2)"` immediately before
`".txt"`. -/
theorem spec_c2_amended (maxfilelen : Nat) (in_str : List Char) (maxlen : Nat)
    (dupn : Int) (h : dupn ≠ 0) :
    (∃ stem ext, eo_massage_str maxfilelen in_str maxlen dupn =
        stem ++ eo_dup_suffix dupn ++ ext ∧
      (strrchr_suffix '.' (eo_massage_bound in_str maxlen) = some ext ∨
        (strrchr_suffix '.' (eo_massage_bound in_str maxlen) = none ∧
          ext = []))) ∧
    eo_massage_str 255 ("name.txt".toList) 10 2 = "name(2).txt".toList := by
  refine ⟨?_, by decide⟩
  rw [eo_massage_str, if_pos h, eo_rename]
  cases hdot : strrchr_suffix '.' (eo_massage_bound in_str maxlen) with
  | some ext => exact ⟨_, ext, rfl, Or.inl rfl⟩
  | none => exact ⟨_, [], by rw [List.append_nil], Or.inr ⟨rfl, rfl⟩⟩

/-- Claim C2 witness: instantiated at `duplicateIndex = 2`. -/
theorem spec_c2_witness :
    (2 : Int) ≠ 0 ∧
    eo_massage_str 255 ("name.txt".toList) 10 2 = "name(2).txt".toList :=
  ⟨by decide, (spec_c2_amended 255 ("name.txt".toList) 10 2 (by decide)).2⟩

/-- Claim C3, counterexample: for `"x.longext"` with `maxLength = 4` the
escaped name (9 bytes) is longer than `maxLength` and contains a `.`, but
the claimed equation `truncatedStem.length + extension.length = maxLength`
forces a result of length 4, while the code returns a string of length 17
(the `gsize` subtraction `maxlen - ext_str->len` wraps, the truncation is a
no-op, and the extension is appended a second time). -/
theorem spec_c3_counterexample :
    (eo_massage_filter ("x.longext".toList)).length > 4 ∧
    strrchr_suffix '.' (eo_massage_filter ("x.longext".toList)) =
      some (".longext".toList) ∧
    (eo_massage_str 255 ("x.longext".toList) 4 0).length = 17 ∧
    ¬ ((eo_massage_str 255 ("x.longext".toList) 4 0).length = 4) :=
  ⟨by decide, by decide, by decide, by decide⟩

/-- Claim C3 (amended): when the escaped filtered name is longer than
`maxLength` and contains a `.`, and additionally the extension (from the
last `.`) is at most `maxLength` long, the result is the truncated stem with
the extension reattached, with `truncatedStem.length + extension.length =
maxLength`; when the escaped name is longer than `maxLength` and contains no
`.`, the result is exactly its first `maxLength` bytes (this half needed no
amendment). -/
theorem spec_c3_amended (maxfilelen : Nat) (in_str : List Char) (maxlen : Nat)
    (hml : maxlen < USIZE)
    (hgt : (eo_massage_filter in_str).length > maxlen) :
    (∀ ext, strrchr_suffix '.' (eo_massage_filter in_str) = some ext →
      ext.length ≤ maxlen →
      eo_massage_str maxfilelen in_str maxlen 0 =
        (eo_massage_filter in_str).take (maxlen - ext.length) ++ ext ∧
      ((eo_massage_filter in_str).take (maxlen - ext.length)).length
        + ext.length = maxlen) ∧
    (strrchr_suffix '.' (eo_massage_filter in_str) = none →
      eo_massage_str maxfilelen in_str maxlen 0 =
        (eo_massage_filter in_str).take maxlen ∧
      (eo_massage_str maxfilelen in_str maxlen 0).length = maxlen) := by
  have hstr : eo_massage_str maxfilelen in_str maxlen 0 =
      eo_massage_bound in_str maxlen := by
    rw [eo_massage_str, if_neg (by simp)]
  constructor
  · intro ext hdot hfit
    have heq : eo_massage_str maxfilelen in_str maxlen 0 =
        (eo_massage_filter in_str).take (maxlen - ext.length) ++ ext := by
      simp only [hstr, eo_massage_bound, if_pos hgt, hdot]
      rw [g_string_truncate_eq_take, gsizeSub_of_le hfit hml]
    refine ⟨heq, ?_⟩
    rw [List.length_take]
    omega
  · intro hdot
    have heq : eo_massage_str maxfilelen in_str maxlen 0 =
        (eo_massage_filter in_str).take maxlen := by
      simp only [hstr, eo_massage_bound, if_pos hgt, hdot]
      rw [g_string_truncate_eq_take]
    refine ⟨heq, ?_⟩
    rw [heq, List.length_take]
    omega

/-- Claim C3 witness: the extension branch at `"averylongname.txt"`,
`maxLength = 10`, and the no-dot branch at `"nodotnamehere"`,
`maxLength = 5`. -/
theorem spec_c3_witness :
    (eo_massage_str 255 ("averylongname.txt".toList) 10 0 =
        (eo_massage_filter ("averylongname.txt".toList)).take
          (10 - (".txt".toList).length) ++ ".txt".toList ∧
      ((eo_massage_filter ("averylongname.txt".toList)).take
          (10 - (".txt".toList).length)).length
        + (".txt".toList).length = 10) ∧
    (eo_massage_str 255 ("nodotnamehere".toList) 5 0 =
        (eo_massage_filter ("nodotnamehere".toList)).take 5 ∧
      (eo_massage_str 255 ("nodotnamehere".toList) 5 0).length = 5) :=
  ⟨(spec_c3_amended 255 ("averylongname.txt".toList) 10 (by decide)
      (by decide)).1 (".txt".toList) (by decide) (by decide),
    (spec_c3_amended 255 ("nodotnamehere".toList) 5 (by decide)
      (by decide)).2 (by decide)⟩

/-- Claim C4: the filtering step replaces each byte of the reject set
(`<>:"/\|?*` and `0x01`–`0x1f`) by `%` plus two lowercase hex digits of the
byte value and copies every other byte verbatim (byte-wise `flatMap`
characterization of the scan loop), and the two concrete examples of the
spec hold — the escaping happens before any truncation, as shown by the
examples passing through `eo_massage_str` itself. -/
theorem spec_c4_theorem :
    (∀ s : List Char, eo_massage_filter s =
        s.flatMap (fun c => if isReject c then pctEscape c else [c])) ∧
    eo_massage_str 255 ("a<b".toList) 100 0 = "a%3cb".toList ∧
    eo_massage_str 255 ("file\x01name".toList) 100 0 =
      "file%01name".toList := by
  refine ⟨?_, by decide, by decide⟩
  intro s
  induction s with
  | nil => rfl
  | cons c rest ih =>
    by_cases hc : isReject c
    · simp [eo_massage_filter, hc, ih]
    · simp [eo_massage_filter, hc, ih]

/-- Claim C5: after every finite sequence of `register_export_object` calls
starting from the empty registry, the registry list is sorted in ascending
case-insensitive order of the registered protocols' filter names (adjacent
entries compare `≤ 0` under `g_ascii_strcasecmp`), and `eo_iterate_tables`
invokes the visitor exactly once per registered entry, in that order,
passing `user_data` through unchanged. -/
theorem spec_c5_theorem {β γ : Type _} (pf : Int → List Char)
    (rt : List Char → Int) (ops : List (Int × Nat × Option Nat))
    (f : register_eo → β → γ) (u : β) :
    RegistrySorted pf (registerAll pf rt ops) ∧
    eo_iterate_tables (registerAll pf rt ops) f u =
      (registerAll pf rt ops).map (fun e => f e u) :=
  ⟨registerAll_sorted_from pf rt ops [] List.chain'_nil,
    g_slist_foreach_eq_map f u (registerAll pf rt ops)⟩

/-- Claim C6: on a registry whose protocols have pairwise distinct filter
names (the registry invariant), `get_eo_by_name` applied to a registered
protocol's filter name returns that protocol's registration record, and for
every name that equals no registered protocol's filter name — string
equality being exact and case-sensitive — it returns the NULL sentinel
(`none`), including on the empty registry. -/
theorem spec_c6_theorem (pf : Int → List Char) (st : List register_eo)
    (hdist : st.Pairwise (fun a b => pf a.proto_id ≠ pf b.proto_id)) :
    (∀ e ∈ st, get_eo_by_name pf st (pf e.proto_id) = some e) ∧
    (∀ name, (∀ e ∈ st, pf e.proto_id ≠ name) →
      get_eo_by_name pf st name = none) :=
  ⟨get_eo_by_name_of_mem pf st hdist,
    fun name h => get_eo_by_name_of_absent pf st name h⟩

/-- Claim C6 witness: lookup of `"http"` finds the http registration, and
lookup of `"HTTP"` (case mismatch) and of the empty registry return NULL. -/
theorem spec_c6_witness :
    get_eo_by_name pfW stW (pfW 0) =
      some ⟨0, "http_eo".toList, 1, none⟩ ∧
    get_eo_by_name pfW stW ("HTTP".toList) = none := by
  have h := spec_c6_theorem pfW stW (by decide)
  exact ⟨h.1 ⟨0, "http_eo".toList, 1, none⟩ (by decide),
    h.2 ("HTTP".toList) (by decide)⟩

/-- Claim C7: a candidate name free of reject-set bytes whose length is
within `maxLength`, with `duplicateIndex = 0`, passes through
`eo_massage_str` unchanged. -/
theorem spec_c7_theorem (maxfilelen : Nat) (s : List Char) (maxlen : Nat)
    (hsafe : ∀ c ∈ s, isReject c = false) (hlen : s.length ≤ maxlen) :
    eo_massage_str maxfilelen s maxlen 0 = s := by
  have hf := eo_massage_filter_of_safe hsafe
  rw [eo_massage_str, if_neg (by simp), eo_massage_bound, hf,
    if_neg (by omega)]

/-- Claim C7 witness: `"hello.txt"` with `maxLength = 20`. -/
theorem spec_c7_witness :
    ((∀ c ∈ ("hello.txt".toList), isReject c = false) ∧
      ("hello.txt".toList).length ≤ 20) ∧
    eo_massage_str 255 ("hello.txt".toList) 20 0 = "hello.txt".toList :=
  ⟨⟨by decide, by decide⟩,
    spec_c7_theorem 255 ("hello.txt".toList) 20 (by decide) (by decide)⟩

/-- Claim C8: `eo_ct2ext` returns its input unchanged for every content-type
string (pass-through stub), and in particular never aborts: a NULL input is
mapped to the NULL "not found" sentinel rather than a fatal error. -/
theorem spec_c8_theorem :
    (∀ ct, eo_ct2ext ct = ct) ∧ eo_ct2ext none = none :=
  ⟨fun _ => rfl, rfl⟩

/-- Claim C9: `register_export_object` with a NULL packet callback hits
`DISSECTOR_ASSERT` (the fatal result `none`); with a non-NULL callback the
assertion is passed and registration completes: the stored record carries
`tap_listen_str = "<protocol-filter-name>_eo"` and the returned token is the
`register_tap` subscription token for exactly that name. -/
theorem spec_c9_theorem (pf : Int → List Char) (rt : List Char → Int)
    (st : List register_eo) (proto_id : Int) (reset_cb : Option Nat) :
    register_export_object pf rt st proto_id none reset_cb = none ∧
    ∀ f : Nat, ∃ st',
      register_export_object pf rt st proto_id (some f) reset_cb =
        some (st', rt (pf proto_id ++ "_eo".toList)) ∧
      (⟨proto_id, pf proto_id ++ "_eo".toList, f, reset_cb⟩ : register_eo)
        ∈ st' := by
  refine ⟨rfl, fun f => ⟨_, rfl, ?_⟩⟩
  obtain ⟨l1, l2, _, hi⟩ :=
    g_slist_insert_sorted_decomp (insert_sorted_by_table_name pf)
      (⟨proto_id, pf proto_id ++ "_eo".toList, f, reset_cb⟩ : register_eo) st
  rw [hi]
  simp

/-- Claim C10: a further registration only inserts the new record somewhere
into the existing list — the registry splits as `l1 ++ l2` with the new
record inserted between — and every previously registered record is still
present afterwards with its four observable fields (`get_eo_proto_id`,
`get_eo_tap_listener_name`, `get_eo_packet_func`, `get_eo_reset_func`)
returning exactly the same values as before. -/
theorem spec_c10_theorem (pf : Int → List Char) (rt : List Char → Int)
    (st : List register_eo) (proto_id : Int) (f : Nat)
    (reset_cb : Option Nat) :
    ∃ l1 l2 tok, st = l1 ++ l2 ∧
      register_export_object pf rt st proto_id (some f) reset_cb =
        some (l1 ++
          (⟨proto_id, pf proto_id ++ "_eo".toList, f, reset_cb⟩ : register_eo)
          :: l2, tok) ∧
      (l1 ++ l2).map (fun e => (get_eo_proto_id (some e),
        get_eo_tap_listener_name e, get_eo_packet_func e,
        get_eo_reset_func e)) =
      st.map (fun e => (get_eo_proto_id (some e),
        get_eo_tap_listener_name e, get_eo_packet_func e,
        get_eo_reset_func e)) := by
  obtain ⟨l1, l2, he, hi⟩ :=
    g_slist_insert_sorted_decomp (insert_sorted_by_table_name pf)
      (⟨proto_id, pf proto_id ++ "_eo".toList, f, reset_cb⟩ : register_eo) st
  refine ⟨l1, l2, rt (pf proto_id ++ "_eo".toList), he, ?_, by rw [← he]⟩
  show some _ = some _
  rw [hi]

end ExportObject
